import Mathlib

/-
Verification of the kvs record-store layer (package kvs).

The Go code wraps an external sorted key-value engine (grocksdb) and an
external term codec (github.com/iho/etf).  We embed the engine keyspace as a
list of (encoded key, encoded value) pairs kept in strictly ascending byte
order — the ordering and cursor semantics guaranteed by the engine — and
transcribe each exported operation of rocksdb.go (Cut, Take, Drop, Top, Bot,
Next, Prev, LoadReader, SaveReader, Append) against that state.  The term
codec is external to the repository, so encoding and decoding are abstract
parameters `enc : Tm → Option Bytes` / `dec : Bytes → Option Tm`; `none`
stands for the codec returning an error.
-/

namespace KVS

/-- A byte string: each entry is one byte value. -/
abbrev Bytes := List Nat

/-- Go bytes.Compare: lexicographic comparison of byte slices (a shorter
slice that is a front segment of the longer one sorts first). -/
def bcmp : Bytes → Bytes → Ordering
  | [], [] => Ordering.eq
  | [], _ :: _ => Ordering.lt
  | _ :: _, [] => Ordering.gt
  | a :: as, b :: bs =>
    if a < b then Ordering.lt
    else if b < a then Ordering.gt
    else bcmp as bs

/-- Strict byte-lexicographic order (bytes.Compare < 0). -/
def blt (a b : Bytes) : Bool :=
  match bcmp a b with
  | Ordering.lt => true
  | _ => false

/-- Reflexive byte-lexicographic order (bytes.Compare <= 0). -/
def ble (a b : Bytes) : Bool :=
  match bcmp a b with
  | Ordering.gt => false
  | _ => true

/-- Error outcomes of the kvs layer.  The Go code reports them as error
values: a codec error from etf.EncodeErlTerm / etf.DecodeErlTerm, and the
strings "key not found", "database is empty", "no next key",
"no previous key". -/
inductive KVErr where
  | encodeErr
  | decodeErr
  | notFound
  | emptyStore
  | noSuccessor
  | noPredecessor
  deriving DecidableEq

/-- The engine keyspace: (encoded key, encoded value) records listed in
ascending byte order of their keys. -/
abbrev Store := List (Bytes × Bytes)

/-- Engine invariant: record keys are strictly ascending in byte order. -/
def Sorted (s : Store) : Prop :=
  List.Pairwise (fun e f => blt e.1 f.1 = true) s

/-- Engine point read (db.Get / db.GetBytes): the value stored at a key,
`none` when the key is absent. -/
def dbGet (k : Bytes) : Store → Option Bytes
  | [] => none
  | e :: s => if e.1 = k then some e.2 else dbGet k s

/-- Engine point write (db.Put): insert or overwrite, keeping keys in
ascending order. -/
def dbPut (k v : Bytes) : Store → Store
  | [] => [(k, v)]
  | e :: s =>
    match bcmp k e.1 with
    | Ordering.lt => (k, v) :: e :: s
    | Ordering.eq => (k, v) :: s
    | Ordering.gt => e :: dbPut k v s

/-- Cursor iter.Seek(k): index of the first record whose key is at least k;
equals the store length when the cursor comes out invalid. -/
def seekIdx (k : Bytes) (s : Store) : Nat :=
  s.findIdx fun e => ble k e.1

/-- Decoding of one (key, value) record back to terms, exactly as the Go
range operations do it: key first, then value, stopping at the first codec
failure. -/
def decodePair {Tm : Type} (dec : Bytes → Option Tm) (e : Bytes × Bytes) :
    Except KVErr (Tm × Tm) :=
  match dec e.1 with
  | none => Except.error KVErr.decodeErr
  | some k =>
    match dec e.2 with
    | none => Except.error KVErr.decodeErr
    | some v => Except.ok (k, v)

/-- Record decoding over a list of records, for stating what the Take loop
computes. -/
def decodePairs {Tm : Type} (dec : Bytes → Option Tm) :
    Store → Except KVErr (List (Tm × Tm))
  | [] => Except.ok []
  | e :: rest =>
    match decodePair dec e with
    | Except.error err => Except.error err
    | Except.ok p =>
      match decodePairs dec rest with
      | Except.error err => Except.error err
      | Except.ok tl => Except.ok (p :: tl)

/-- RocksDB.SaveReader: encode key and value, then db.Put.  The pair holds
the call result and the store after the call. -/
def SaveReader {Tm : Type} (enc : Tm → Option Bytes) (id data : Tm)
    (s : Store) : Except KVErr Unit × Store :=
  match enc id with
  | none => (Except.error KVErr.encodeErr, s)
  | some idb =>
    match enc data with
    | none => (Except.error KVErr.encodeErr, s)
    | some datab => (Except.ok (), dbPut idb datab s)

/-- RocksDB.LoadReader: encode the key, db.GetBytes, fail with the
"key not found" error when the engine returns nil, else decode the value. -/
def LoadReader {Tm : Type} (enc : Tm → Option Bytes)
    (dec : Bytes → Option Tm) (id : Tm) (s : Store) : Except KVErr Tm :=
  match enc id with
  | none => Except.error KVErr.encodeErr
  | some idb =>
    match dbGet idb s with
    | none => Except.error KVErr.notFound
    | some vb =>
      match dec vb with
      | none => Except.error KVErr.decodeErr
      | some v => Except.ok v

/-- RocksDB.Append: encode the record key; if the engine already holds a
value there, return the key without writing; otherwise encode the feed value
and db.Put it under the record key. -/
def Append {Tm : Type} (enc : Tm → Option Bytes) (rec feed : Tm)
    (s : Store) : Except KVErr Tm × Store :=
  match enc rec with
  | none => (Except.error KVErr.encodeErr, s)
  | some recb =>
    match dbGet recb s with
    | some _ => (Except.ok rec, s)
    | none =>
      match enc feed with
      | none => (Except.error KVErr.encodeErr, s)
      | some feedb => (Except.ok rec, dbPut recb feedb s)

/-- RocksDB.Cut: encode the feed into start, set the range top to
start ++ [0xFF], iterate from Seek(start), stage every visited key with
bytes.Compare(key, top) < 0 for deletion, and commit the batch in one
atomic write. -/
def Cut {Tm : Type} (enc : Tm → Option Bytes) (feed : Tm) (s : Store) :
    Except KVErr Unit × Store :=
  match enc feed with
  | none => (Except.error KVErr.encodeErr, s)
  | some start =>
    let stop := start ++ [255]
    let victims :=
      ((s.drop (seekIdx start s)).takeWhile fun e => blt e.1 stop).map
        Prod.fst
    (Except.ok (), s.filter fun e => !(victims.contains e.1))

/-- The records the Take / Drop traversal visits: iterate from Seek(start)
while the cursor is valid and fewer than num records were seen.  A
non-positive Go count gives an empty traversal (Int.toNat clips at zero). -/
def takeWindow (start : Bytes) (num : Int) (s : Store) : Store :=
  (s.drop (seekIdx start s)).take num.toNat

/-- The Take loop body: while the cursor is valid and the count is below
num, decode the current record (key then value, stopping on the first codec
failure) and advance. -/
def takeLoop {Tm : Type} (dec : Bytes → Option Tm) :
    Store → Nat → Except KVErr (List (Tm × Tm))
  | _, 0 => Except.ok []
  | [], _ + 1 => Except.ok []
  | e :: rest, n + 1 =>
    match decodePair dec e with
    | Except.error err => Except.error err
    | Except.ok p =>
      match takeLoop dec rest n with
      | Except.error err => Except.error err
      | Except.ok tl => Except.ok (p :: tl)

/-- RocksDB.Take: encode the start key, Seek there, and collect up to num
decoded (key, value) pairs in cursor order. -/
def Take {Tm : Type} (enc : Tm → Option Bytes) (dec : Bytes → Option Tm)
    (startKey : Tm) (num : Int) (s : Store) :
    Except KVErr (List (Tm × Tm)) :=
  match enc startKey with
  | none => Except.error KVErr.encodeErr
  | some start => takeLoop dec (s.drop (seekIdx start s)) num.toNat

/-- RocksDB.Drop: same traversal as Take, staging each visited key for
deletion in a batch that commits in one atomic write. -/
def Drop {Tm : Type} (enc : Tm → Option Bytes) (startKey : Tm) (num : Int)
    (s : Store) : Except KVErr Unit × Store :=
  match enc startKey with
  | none => (Except.error KVErr.encodeErr, s)
  | some start =>
    let victims := (takeWindow start num s).map Prod.fst
    (Except.ok (), s.filter fun e => !(victims.contains e.1))

/-- RocksDB.Top: SeekToFirst; when the cursor is valid decode and return
that record, else fail with the "database is empty" error. -/
def Top {Tm : Type} (dec : Bytes → Option Tm) (s : Store) :
    Except KVErr (Tm × Tm) :=
  match s.head? with
  | none => Except.error KVErr.emptyStore
  | some e => decodePair dec e

/-- RocksDB.Bot: SeekToLast; when the cursor is valid decode and return
that record, else fail with the "database is empty" error. -/
def Bot {Tm : Type} (dec : Bytes → Option Tm) (s : Store) :
    Except KVErr (Tm × Tm) :=
  match s.getLast? with
  | none => Except.error KVErr.emptyStore
  | some e => decodePair dec e

/-- The cursor walk of RocksDB.Next on encoded keys: Seek(start); if the
cursor is valid and sits exactly on start, advance once; return the record
under the cursor, or the "no next key" error when it is invalid. -/
def NextOp (start : Bytes) (s : Store) : Except KVErr (Bytes × Bytes) :=
  let i := seekIdx start s
  let j :=
    match s[i]? with
    | some e => if e.1 = start then i + 1 else i
    | none => i
  match s[j]? with
  | some e => Except.ok e
  | none => Except.error KVErr.noSuccessor

/-- RocksDB.Next: encode the start key, run the cursor walk, decode the
record it lands on. -/
def Next {Tm : Type} (enc : Tm → Option Bytes) (dec : Bytes → Option Tm)
    (startKey : Tm) (s : Store) : Except KVErr (Tm × Tm) :=
  match enc startKey with
  | none => Except.error KVErr.encodeErr
  | some start =>
    match NextOp start s with
    | Except.error err => Except.error err
    | Except.ok e => decodePair dec e

/-- The cursor walk of RocksDB.Prev on encoded keys: Seek(start); when the
cursor is valid step back once (invalid from position zero), otherwise
SeekForPrev(start) lands on the last record with key at most start.  Return
the record under the cursor, or the "no previous key" error when it is
invalid.  The store length serves as the invalid cursor position. -/
def PrevOp (start : Bytes) (s : Store) : Except KVErr (Bytes × Bytes) :=
  let i := seekIdx start s
  let j :=
    if i < s.length then
      (if i = 0 then s.length else i - 1)
    else
      (let c := s.findIdx fun e => blt start e.1
       if c = 0 then s.length else c - 1)
  match s[j]? with
  | some e => Except.ok e
  | none => Except.error KVErr.noPredecessor

/-- RocksDB.Prev: encode the start key, run the cursor walk, decode the
record it lands on. -/
def Prev {Tm : Type} (enc : Tm → Option Bytes) (dec : Bytes → Option Tm)
    (startKey : Tm) (s : Store) : Except KVErr (Tm × Tm) :=
  match enc startKey with
  | none => Except.error KVErr.encodeErr
  | some start =>
    match PrevOp start s with
    | Except.error err => Except.error err
    | Except.ok e => decodePair dec e

end KVS

namespace KVS

/-- bcmp of a byte string with itself is eq. -/
theorem bcmp_self (a : Bytes) : bcmp a a = Ordering.eq := by
  induction a with
  | nil => rfl
  | cons x xs ih => simp [bcmp, ih]

/-- bcmp returns eq exactly on equal byte strings. -/
theorem bcmp_eq_iff {a b : Bytes} : bcmp a b = Ordering.eq ↔ a = b := by
  induction a generalizing b with
  | nil => cases b <;> simp [bcmp]
  | cons x xs ih =>
    cases b with
    | nil => simp [bcmp]
    | cons y ys =>
      rcases Nat.lt_trichotomy x y with h | h | h
      · have hne : x ≠ y := Nat.ne_of_lt h
        simp [bcmp, h, hne]
      · subst h
        simp [bcmp, Nat.lt_irrefl, ih]
      · have hne : x ≠ y := (Nat.ne_of_lt h).symm
        simp [bcmp, Nat.lt_asymm h, h, hne]

/-- Swapping the arguments of bcmp swaps the outcome. -/
theorem bcmp_swap (a b : Bytes) : (bcmp a b).swap = bcmp b a := by
  induction a generalizing b with
  | nil => cases b <;> simp [bcmp, Ordering.swap]
  | cons x xs ih =>
    cases b with
    | nil => simp [bcmp, Ordering.swap]
    | cons y ys =>
      rcases Nat.lt_trichotomy x y with h | h | h
      · simp [bcmp, h, Nat.lt_asymm h, Ordering.swap]
      · subst h
        simp [bcmp, Nat.lt_irrefl, ih]
      · simp [bcmp, h, Nat.lt_asymm h, Ordering.swap]

/-- bcmp is transitive in its lt outcome. -/
theorem bcmp_lt_trans {a b c : Bytes} (hab : bcmp a b = Ordering.lt)
    (hbc : bcmp b c = Ordering.lt) : bcmp a c = Ordering.lt := by
  induction a generalizing b c with
  | nil =>
    cases b with
    | nil => simp [bcmp] at hab
    | cons y ys =>
      cases c with
      | nil => simp [bcmp] at hbc
      | cons z zs => simp [bcmp]
  | cons x xs ih =>
    cases b with
    | nil => simp [bcmp] at hab
    | cons y ys =>
      cases c with
      | nil => simp [bcmp] at hbc
      | cons z zs =>
        rcases Nat.lt_trichotomy x y with h1 | h1 | h1
        · rcases Nat.lt_trichotomy y z with h2 | h2 | h2
          · simp [bcmp, Nat.lt_trans h1 h2]
          · subst h2
            simp [bcmp, h1]
          · simp [bcmp, Nat.lt_asymm h2, h2] at hbc
        · subst h1
          simp [bcmp, Nat.lt_irrefl] at hab
          rcases Nat.lt_trichotomy x z with h2 | h2 | h2
          · simp [bcmp, h2]
          · subst h2
            simp [bcmp, Nat.lt_irrefl] at hbc ⊢
            exact ih hab hbc
          · simp [bcmp, Nat.lt_asymm h2, h2] at hbc
        · simp [bcmp, Nat.lt_asymm h1, h1] at hab

/-- blt holds exactly when bcmp is lt. -/
theorem blt_iff {a b : Bytes} : blt a b = true ↔ bcmp a b = Ordering.lt := by
  cases h : bcmp a b <;> simp [blt, h]

/-- ble holds exactly when bcmp is not gt. -/
theorem ble_iff {a b : Bytes} : ble a b = true ↔ bcmp a b ≠ Ordering.gt := by
  cases h : bcmp a b <;> simp [ble, h]

/-- blt is the boolean complement of ble with swapped arguments. -/
theorem blt_eq_not_ble (a b : Bytes) : blt a b = !(ble b a) := by
  have hs : bcmp b a = (bcmp a b).swap := (bcmp_swap a b).symm
  cases h : bcmp a b <;> simp [blt, ble, hs, h, Ordering.swap]

/-- ble fails exactly when blt holds the other way. -/
theorem not_ble {a b : Bytes} : ble a b = false ↔ blt b a = true := by
  rw [blt_eq_not_ble b a]
  cases h : ble a b <;> simp

/-- blt is irreflexive. -/
theorem blt_irrefl (a : Bytes) : blt a a = false := by
  simp [blt, bcmp_self a]

/-- ble is reflexive. -/
theorem ble_refl (a : Bytes) : ble a a = true := by
  simp [ble, bcmp_self a]

/-- blt implies ble. -/
theorem ble_of_blt {a b : Bytes} (h : blt a b = true) : ble a b = true := by
  rw [blt_iff] at h
  simp [ble, h]

/-- blt is asymmetric. -/
theorem blt_asymm {a b : Bytes} (h : blt a b = true) : blt b a = false := by
  rw [blt_iff] at h
  have h2 : bcmp b a = Ordering.gt := by
    rw [← bcmp_swap a b, h]
    rfl
  simp [blt, h2]

/-- blt distinguishes its arguments. -/
theorem ne_of_blt {a b : Bytes} (h : blt a b = true) : a ≠ b := by
  intro hab
  subst hab
  rw [blt_irrefl] at h
  exact Bool.noConfusion h

/-- blt is transitive. -/
theorem blt_trans {a b c : Bytes} (h1 : blt a b = true)
    (h2 : blt b c = true) : blt a c = true := by
  rw [blt_iff] at h1 h2 ⊢
  exact bcmp_lt_trans h1 h2

/-- ble splits into blt or equality. -/
theorem ble_cases {a b : Bytes} (h : ble a b = true) :
    blt a b = true ∨ a = b := by
  rw [ble_iff] at h
  cases hc : bcmp a b with
  | lt =>
    left
    rw [blt_iff]
    exact hc
  | eq =>
    right
    exact bcmp_eq_iff.mp hc
  | gt => exact absurd hc h

/-- A reflexive bound followed by a strict step is strict. -/
theorem blt_of_ble_of_blt {a b c : Bytes} (h1 : ble a b = true)
    (h2 : blt b c = true) : blt a c = true := by
  rcases ble_cases h1 with h | rfl
  · exact blt_trans h h2
  · exact h2

/-- A strict step followed by a reflexive bound is strict. -/
theorem blt_of_blt_of_ble {a b c : Bytes} (h1 : blt a b = true)
    (h2 : ble b c = true) : blt a c = true := by
  rcases ble_cases h2 with h | rfl
  · exact blt_trans h1 h
  · exact h1

/-- ble is transitive. -/
theorem ble_trans {a b c : Bytes} (h1 : ble a b = true)
    (h2 : ble b c = true) : ble a c = true := by
  rcases ble_cases h1 with h | rfl
  · exact ble_of_blt (blt_of_blt_of_ble h h2)
  · exact h2

/-- ble holds when blt fails the other way. -/
theorem ble_of_not_blt {a b : Bytes} (h : blt a b = false) :
    ble b a = true := by
  cases h2 : ble b a
  · rw [not_ble.mp h2] at h
    exact Bool.noConfusion h
  · rfl

end KVS

namespace KVS

/-- Unfolding of the sortedness invariant at a cons cell. -/
theorem sorted_cons {e : Bytes × Bytes} {s : Store} :
    Sorted (e :: s) ↔ (∀ f ∈ s, blt e.1 f.1 = true) ∧ Sorted s := by
  simp [Sorted, List.pairwise_cons]

/-- Reading back the key just written returns the value just written. -/
theorem dbGet_dbPut_self (k v : Bytes) (s : Store) :
    dbGet k (dbPut k v s) = some v := by
  induction s with
  | nil => simp [dbPut, dbGet]
  | cons e s ih =>
    cases hc : bcmp k e.1 with
    | lt => simp [dbPut, hc, dbGet]
    | eq => simp [dbPut, hc, dbGet]
    | gt =>
      have hne : e.1 ≠ k := by
        intro h
        rw [h, bcmp_self] at hc
        exact Ordering.noConfusion hc
      simp [dbPut, hc, dbGet, hne, ih]

/-- Writing one key leaves every other key unchanged. -/
theorem dbGet_dbPut_ne {k k2 : Bytes} (hne : k2 ≠ k) (v : Bytes)
    (s : Store) : dbGet k2 (dbPut k v s) = dbGet k2 s := by
  have hkk : k ≠ k2 := fun h => hne h.symm
  induction s with
  | nil => simp [dbPut, dbGet, hkk]
  | cons e s ih =>
    cases hc : bcmp k e.1 with
    | lt => simp [dbPut, hc, dbGet, hkk]
    | eq =>
      have hek : e.1 = k := (bcmp_eq_iff.mp hc).symm
      simp only [dbPut, hc]
      simp [dbGet, hkk, hek]
    | gt => simp [dbPut, hc, dbGet, ih]

/-- A key is read as absent exactly when no record carries it. -/
theorem dbGet_eq_none_iff {k : Bytes} {s : Store} :
    dbGet k s = none ↔ ∀ e ∈ s, e.1 ≠ k := by
  induction s with
  | nil => simp [dbGet]
  | cons e s ih =>
    by_cases h : e.1 = k
    · simp [dbGet, h]
    · simp [dbGet, h, ih]

/-- The cursor seek drops exactly the records whose key is below the
target. -/
theorem seek_drop_eq_dropWhile (k : Bytes) (s : Store) :
    s.drop (seekIdx k s) = s.dropWhile fun e => blt e.1 k := by
  induction s with
  | nil => rfl
  | cons e s ih =>
    rw [List.dropWhile_cons]
    cases h : ble k e.1
    · have hb : blt e.1 k = true := by
        rw [blt_eq_not_ble, h]
        rfl
      rw [if_pos hb]
      unfold seekIdx at ih ⊢
      rw [List.findIdx_cons, h, cond_false, List.drop_succ_cons]
      exact ih
    · have hb : blt e.1 k = false := by
        rw [blt_eq_not_ble, h]
        rfl
      rw [if_neg (by simp [hb])]
      unfold seekIdx
      rw [List.findIdx_cons, h, cond_true, List.drop_zero]

/-- On a sorted store, dropWhile over the complement of an upward-closed
key predicate computes its filter. -/
theorem sorted_dropWhile_filter {s : Store} (hs : Sorted s)
    (p q : Bytes × Bytes → Bool) (hpq : ∀ e, p e = !(q e))
    (hup : ∀ a b, q a = true → blt a.1 b.1 = true → q b = true) :
    s.dropWhile p = s.filter q := by
  induction s with
  | nil => rfl
  | cons e s ih =>
    rw [sorted_cons] at hs
    rw [List.dropWhile_cons, List.filter_cons]
    cases hq : q e
    · have hp : p e = true := by rw [hpq, hq]; rfl
      simp only [hp, if_true, Bool.false_eq_true, if_false]
      exact ih hs.2
    · have hp : p e = false := by rw [hpq, hq]; rfl
      have hall : ∀ f ∈ s, q f = true := fun f hf =>
        hup e f hq (hs.1 f hf)
      simp only [hp, Bool.false_eq_true, if_false, if_true]
      rw [List.filter_eq_self.mpr hall]

/-- On a sorted store, takeWhile over a downward-closed key predicate
computes its filter. -/
theorem sorted_takeWhile_filter {s : Store} (hs : Sorted s)
    (q : Bytes × Bytes → Bool)
    (hdown : ∀ a b, q a = false → blt a.1 b.1 = true → q b = false) :
    s.takeWhile q = s.filter q := by
  induction s with
  | nil => rfl
  | cons e s ih =>
    rw [sorted_cons] at hs
    rw [List.takeWhile_cons, List.filter_cons]
    cases hq : q e
    · have hall : ∀ f ∈ s, ¬ q f = true := by
        intro f hf
        rw [hdown e f hq (hs.1 f hf)]
        simp
      simp [List.filter_eq_nil_iff.mpr hall]
    · simp [ih hs.2]

/-- On a sorted store, distinct records carry distinct keys. -/
theorem sorted_key_inj {s : Store} (hs : Sorted s) {e f : Bytes × Bytes}
    (he : e ∈ s) (hf : f ∈ s) (hk : e.1 = f.1) : e = f := by
  induction s with
  | nil => cases he
  | cons g s ih =>
    rw [sorted_cons] at hs
    rcases List.mem_cons.mp he with rfl | he2
    · rcases List.mem_cons.mp hf with rfl | hf2
      · rfl
      · have hb := hs.1 f hf2
        rw [hk, blt_irrefl] at hb
        exact Bool.noConfusion hb
    · rcases List.mem_cons.mp hf with rfl | hf2
      · have hb := hs.1 e he2
        rw [← hk, blt_irrefl] at hb
        exact Bool.noConfusion hb
      · exact ih hs.2 he2 hf2

/-- Removing the keys of the records selected by a predicate from a sorted
store removes exactly the selected records. -/
theorem filter_not_contains_keys {s : Store} (hs : Sorted s)
    (p : Bytes × Bytes → Bool) :
    (s.filter fun e => !(((s.filter p).map Prod.fst).contains e.1)) =
      s.filter fun e => !(p e) := by
  apply List.filter_congr
  intro e he
  have hiff : ((s.filter p).map Prod.fst).contains e.1 = true ↔
      p e = true := by
    constructor
    · intro hc
      have hmem : e.1 ∈ (s.filter p).map Prod.fst := by
        simpa [List.contains, List.elem_iff] using hc
      rcases List.mem_map.mp hmem with ⟨f, hf, hfe⟩
      rcases List.mem_filter.mp hf with ⟨hfs, hpf⟩
      have hef : f = e := sorted_key_inj hs hfs he hfe
      rwa [hef] at hpf
    · intro hp
      have hmem : e.1 ∈ (s.filter p).map Prod.fst :=
        List.mem_map.mpr ⟨e, List.mem_filter.mpr ⟨he, hp⟩, rfl⟩
      simpa [List.contains, List.elem_iff] using hmem
  have heq : ((s.filter p).map Prod.fst).contains e.1 = p e := by
    cases hp : p e
    · cases hc : ((s.filter p).map Prod.fst).contains e.1
      · rfl
      · rw [hp] at hiff
        exact absurd (hiff.mp hc) (by simp)
    · exact hiff.mpr hp
  rw [heq]

end KVS

namespace KVS

/-- A single-record decode only ever fails with the decode error. -/
theorem decodePair_error {Tm : Type} (dec : Bytes → Option Tm)
    (e : Bytes × Bytes) (err : KVErr)
    (h : decodePair dec e = Except.error err) : err = KVErr.decodeErr := by
  unfold decodePair at h
  cases h1 : dec e.1 with
  | none =>
    rw [h1] at h
    simp at h
    exact h.symm
  | some k =>
    rw [h1] at h
    cases h2 : dec e.2 with
    | none =>
      rw [h2] at h
      simp at h
      exact h.symm
    | some v =>
      rw [h2] at h
      simp at h

/-- Record-list decoding only ever fails with the decode error. -/
theorem decodePairs_error {Tm : Type} (dec : Bytes → Option Tm) :
    ∀ (l : Store) (err : KVErr), decodePairs dec l = Except.error err →
      err = KVErr.decodeErr := by
  intro l
  induction l with
  | nil =>
    intro err h
    exact absurd h (by simp [decodePairs])
  | cons e rest ih =>
    intro err h
    unfold decodePairs at h
    cases hd : decodePair dec e with
    | error err2 =>
      rw [hd] at h
      simp at h
      rw [← h]
      exact decodePair_error dec e err2 hd
    | ok p =>
      rw [hd] at h
      cases hr : decodePairs dec rest with
      | error err2 =>
        rw [hr] at h
        simp at h
        rw [← h]
        exact ih err2 hr
      | ok tl =>
        rw [hr] at h
        simp at h

/-- The Take loop equals decoding the first n visited records. -/
theorem takeLoop_eq_decodePairs {Tm : Type} (dec : Bytes → Option Tm) :
    ∀ (l : Store) (n : Nat), takeLoop dec l n = decodePairs dec (l.take n) := by
  intro l
  induction l with
  | nil =>
    intro n
    cases n <;> rfl
  | cons e rest ih =>
    intro n
    cases n with
    | zero => rfl
    | succ m =>
      simp only [takeLoop, List.take_succ_cons, decodePairs, ih m]

/-- Membership in a store filtered by key exclusion. -/
theorem mem_filter_not_contains (V : List Bytes) (s : Store)
    (e : Bytes × Bytes) :
    (e ∈ s.filter fun f => !(V.contains f.1)) ↔ e ∈ s ∧ ¬ e.1 ∈ V := by
  rw [List.mem_filter]
  simp [List.contains, List.elem_iff]

/-- C1: for key and value terms whose encodings succeed and decode back,
Put (SaveReader) then Get (LoadReader) returns exactly the value written,
and a later Put of a second value under the same key overwrites it, so Get
then returns the second value (last-write-wins). -/
theorem put_get_last_write_wins {Tm : Type} (enc : Tm → Option Bytes)
    (dec : Bytes → Option Tm) (k v v2 : Tm) (kb vb vb2 : Bytes) (s : Store)
    (hk : enc k = some kb) (hv : enc v = some vb) (hv2 : enc v2 = some vb2)
    (hdv : dec vb = some v) (hdv2 : dec vb2 = some v2) :
    (SaveReader enc k v s).1 = Except.ok () ∧
    LoadReader enc dec k (SaveReader enc k v s).2 = Except.ok v ∧
    (SaveReader enc k v2 (SaveReader enc k v s).2).1 = Except.ok () ∧
    LoadReader enc dec k (SaveReader enc k v2 (SaveReader enc k v s).2).2 =
      Except.ok v2 := by
  simp [SaveReader, hk, hv, hv2, LoadReader, dbGet_dbPut_self, hdv, hdv2]

/-- Witness for put_get_last_write_wins at a concrete codec and store. -/
theorem put_get_last_write_wins_witness :
    ((fun b : Bytes => some b) [0] = some [0]) ∧
    ((SaveReader (fun b : Bytes => some b) ([0] : Bytes) [1] []).1 =
        Except.ok () ∧
      LoadReader (fun b : Bytes => some b) some [0]
          (SaveReader (fun b : Bytes => some b) [0] [1] []).2 =
        Except.ok [1] ∧
      (SaveReader (fun b : Bytes => some b) [0] [2]
          (SaveReader (fun b : Bytes => some b) [0] [1] []).2).1 =
        Except.ok () ∧
      LoadReader (fun b : Bytes => some b) some [0]
          (SaveReader (fun b : Bytes => some b) [0] [2]
            (SaveReader (fun b : Bytes => some b) [0] [1] []).2).2 =
        Except.ok [2]) :=
  ⟨rfl, put_get_last_write_wins (fun b => some b) some [0] [1] [2] [0] [1]
    [2] [] rfl rfl rfl rfl rfl⟩

/-- C2: Append on an absent key inserts the value under that key and
returns the key; a later Append of any second value under the same key
returns the key, leaves the store exactly unchanged, and the stored value
stays the first value. -/
theorem append_dedup_idempotent {Tm : Type} (enc : Tm → Option Bytes)
    (dec : Bytes → Option Tm) (k v1 v2 : Tm) (kb v1b : Bytes) (s : Store)
    (hk : enc k = some kb) (hv1 : enc v1 = some v1b)
    (habs : dbGet kb s = none) (hd : dec v1b = some v1) :
    Append enc k v1 s = (Except.ok k, dbPut kb v1b s) ∧
    Append enc k v2 (dbPut kb v1b s) = (Except.ok k, dbPut kb v1b s) ∧
    LoadReader enc dec k (dbPut kb v1b s) = Except.ok v1 := by
  have h1 : dbGet kb (dbPut kb v1b s) = some v1b := dbGet_dbPut_self kb v1b s
  simp [Append, hk, hv1, habs, LoadReader, h1, hd]

/-- Witness for append_dedup_idempotent at a concrete codec and store. -/
theorem append_dedup_idempotent_witness :
    (dbGet [0] ([] : Store) = none) ∧
    (Append (fun b : Bytes => some b) ([0] : Bytes) [1] [] =
        (Except.ok [0], dbPut [0] [1] []) ∧
      Append (fun b : Bytes => some b) [0] [2] (dbPut [0] [1] []) =
        (Except.ok [0], dbPut [0] [1] []) ∧
      LoadReader (fun b : Bytes => some b) some [0] (dbPut [0] [1] []) =
        Except.ok [1]) :=
  ⟨rfl, append_dedup_idempotent (fun b => some b) some [0] [1] [2] [0] [1]
    [] rfl rfl rfl rfl⟩

/-- C9: with a successfully encoded key, Get (LoadReader) fails with the
NotFound error exactly when no record carries that encoded key, and when a
record is present it returns the decoded stored value. -/
theorem get_notfound_iff_absent {Tm : Type} (enc : Tm → Option Bytes)
    (dec : Bytes → Option Tm) (k : Tm) (kb : Bytes) (s : Store)
    (hk : enc k = some kb) :
    (LoadReader enc dec k s = Except.error KVErr.notFound ↔
      ∀ e ∈ s, e.1 ≠ kb) ∧
    (∀ vb v, dbGet kb s = some vb → dec vb = some v →
      LoadReader enc dec k s = Except.ok v) := by
  constructor
  · rw [← dbGet_eq_none_iff]
    constructor
    · intro h
      cases hg : dbGet kb s with
      | none => rfl
      | some vb =>
        exfalso
        cases hd : dec vb with
        | none => simp [LoadReader, hk, hg, hd] at h
        | some v => simp [LoadReader, hk, hg, hd] at h
    · intro h
      simp [LoadReader, hk, h]
  · intro vb v hg hd
    simp [LoadReader, hk, hg, hd]

/-- Witness for get_notfound_iff_absent at a concrete codec and store. -/
theorem get_notfound_iff_absent_witness :
    ((fun b : Bytes => some b) [0] = some [0]) ∧
    ((LoadReader (fun b : Bytes => some b) some ([0] : Bytes)
          [([1], [7])] = Except.error KVErr.notFound ↔
        ∀ e ∈ ([([1], [7])] : Store), e.1 ≠ [0]) ∧
      (∀ vb v, dbGet [0] ([([1], [7])] : Store) = some vb →
        some vb = some v →
        LoadReader (fun b : Bytes => some b) some [0] [([1], [7])] =
          Except.ok v)) :=
  ⟨rfl, get_notfound_iff_absent (fun b => some b) some [0] [0]
    [([1], [7])] rfl⟩

/-- C10: when encoding an argument term fails, each mutating operation —
SaveReader, Append, Drop, Cut — returns the encode error before issuing any
engine write, leaving the store exactly unchanged. -/
theorem encode_error_atomic {Tm : Type} (enc : Tm → Option Bytes)
    (k v rec feed startKey p : Tm) (num : Int) (s : Store) :
    (enc k = none →
      SaveReader enc k v s = (Except.error KVErr.encodeErr, s)) ∧
    (∀ kb, enc k = some kb → enc v = none →
      SaveReader enc k v s = (Except.error KVErr.encodeErr, s)) ∧
    (enc rec = none →
      Append enc rec feed s = (Except.error KVErr.encodeErr, s)) ∧
    (∀ rb, enc rec = some rb → dbGet rb s = none → enc feed = none →
      Append enc rec feed s = (Except.error KVErr.encodeErr, s)) ∧
    (enc startKey = none →
      Drop enc startKey num s = (Except.error KVErr.encodeErr, s)) ∧
    (enc p = none →
      Cut enc p s = (Except.error KVErr.encodeErr, s)) := by
  refine ⟨?_, ?_, ?_, ?_, ?_, ?_⟩
  · intro h
    simp [SaveReader, h]
  · intro kb hk hv
    simp [SaveReader, hk, hv]
  · intro h
    simp [Append, h]
  · intro rb hr hg hf
    simp [Append, hr, hg, hf]
  · intro h
    simp [Drop, h]
  · intro h
    simp [Cut, h]

/-- Witness for encode_error_atomic with a codec that fails on the empty
byte string, over a nonempty store. -/
theorem encode_error_atomic_witness :
    (SaveReader (fun b : Bytes => if b = [] then none else some b)
        ([] : Bytes) [1] [([5], [6])] =
      (Except.error KVErr.encodeErr, [([5], [6])])) ∧
    (SaveReader (fun b : Bytes => if b = [] then none else some b)
        [0] [] [([5], [6])] =
      (Except.error KVErr.encodeErr, [([5], [6])])) ∧
    (Append (fun b : Bytes => if b = [] then none else some b)
        [] [1] [([5], [6])] =
      (Except.error KVErr.encodeErr, [([5], [6])])) ∧
    (Append (fun b : Bytes => if b = [] then none else some b)
        [0] [] [([5], [6])] =
      (Except.error KVErr.encodeErr, [([5], [6])])) ∧
    (Drop (fun b : Bytes => if b = [] then none else some b)
        [] 3 [([5], [6])] =
      (Except.error KVErr.encodeErr, [([5], [6])])) ∧
    (Cut (fun b : Bytes => if b = [] then none else some b)
        [] [([5], [6])] =
      (Except.error KVErr.encodeErr, [([5], [6])])) :=
  ⟨(encode_error_atomic (fun b : Bytes => if b = [] then none else some b)
      [] [1] [] [1] [] [] 3 [([5], [6])]).1 (by decide),
   (encode_error_atomic (fun b : Bytes => if b = [] then none else some b)
      [0] [] [] [1] [] [] 3 [([5], [6])]).2.1 [0] (by decide) (by decide),
   (encode_error_atomic (fun b : Bytes => if b = [] then none else some b)
      [] [1] [] [1] [] [] 3 [([5], [6])]).2.2.1 (by decide),
   (encode_error_atomic (fun b : Bytes => if b = [] then none else some b)
      [] [1] [0] [] [] [] 3 [([5], [6])]).2.2.2.1 [0] (by decide)
      (by decide) (by decide),
   (encode_error_atomic (fun b : Bytes => if b = [] then none else some b)
      [] [1] [] [1] [] [] 3 [([5], [6])]).2.2.2.2.1 (by decide),
   (encode_error_atomic (fun b : Bytes => if b = [] then none else some b)
      [] [1] [] [1] [] [] 3 [([5], [6])]).2.2.2.2.2 (by decide)⟩

end KVS

namespace KVS

/-- On a sorted store, the cursor seek keeps exactly the records whose key
is at least the target. -/
theorem seek_drop_filter {s : Store} (hs : Sorted s) (k : Bytes) :
    s.drop (seekIdx k s) = s.filter fun e => ble k e.1 := by
  rw [seek_drop_eq_dropWhile]
  exact sorted_dropWhile_filter hs _ _ (fun e => blt_eq_not_ble e.1 k)
    (fun a b h1 h2 => ble_of_blt (blt_of_ble_of_blt h1 h2))

/-- Counterexample to the strict-prefix reading of Cut: with the identity
codec on byte strings, the store holding only the key equal to the encoded
feed itself has no key with that encoding as a true prefix, yet Cut empties
it; and a key extending the encoding with a first extra byte 0xFF does have
it as a true prefix, yet Cut leaves it in place. -/
theorem cut_exactness_counterexample :
    (∀ e ∈ ([([0], [1])] : Store),
      ¬(List.isPrefixOf ([0] : Bytes) e.1 = true ∧ ([0] : Bytes) ≠ e.1)) ∧
    (Cut (fun b : Bytes => some b) [0] [([0], [1])]).2 = [] ∧
    (List.isPrefixOf ([0] : Bytes) [0, 255] = true ∧
      ([0] : Bytes) ≠ [0, 255]) ∧
    (Cut (fun b : Bytes => some b) [0] [([0, 255], [1])]).2 =
      [([0, 255], [1])] := by
  decide

/-- C3 (amended): Cut removes exactly the records whose key lies in the
half-open byte range from the encoded feed (inclusive) up to the encoded
feed with 0xFF appended (exclusive), leaves every other record untouched,
and is a non-error no-op when no key falls in that range. -/
theorem cut_range_exact {Tm : Type} (enc : Tm → Option Bytes) (p : Tm)
    (pb : Bytes) {s : Store} (hs : Sorted s) (he : enc p = some pb) :
    (Cut enc p s).1 = Except.ok () ∧
    (Cut enc p s).2 =
      (s.filter fun e => !(ble pb e.1 && blt e.1 (pb ++ [255]))) ∧
    ((∀ e ∈ s, (ble pb e.1 && blt e.1 (pb ++ [255])) = false) →
      (Cut enc p s).2 = s) := by
  have hs2 : Sorted (s.filter fun e => ble pb e.1) := by
    unfold Sorted at hs ⊢
    exact hs.filter _
  have hdown : ∀ a b : Bytes × Bytes, blt a.1 (pb ++ [255]) = false →
      blt a.1 b.1 = true → blt b.1 (pb ++ [255]) = false := by
    intro a b h1 h2
    exact blt_asymm (blt_of_ble_of_blt (ble_of_not_blt h1) h2)
  have hvict : ((s.drop (seekIdx pb s)).takeWhile
        fun e => blt e.1 (pb ++ [255])) =
      s.filter fun e => ble pb e.1 && blt e.1 (pb ++ [255]) := by
    rw [seek_drop_filter hs pb,
      sorted_takeWhile_filter hs2 (fun e => blt e.1 (pb ++ [255])) hdown,
      List.filter_filter]
    exact List.filter_congr fun e he2 => Bool.and_comm _ _
  have hmain : (Cut enc p s).2 =
      s.filter fun e => !(ble pb e.1 && blt e.1 (pb ++ [255])) := by
    simp only [Cut, he]
    rw [hvict]
    exact filter_not_contains_keys hs
      (fun e => ble pb e.1 && blt e.1 (pb ++ [255]))
  refine ⟨by simp [Cut, he], hmain, ?_⟩
  intro hnone
  rw [hmain]
  apply List.filter_eq_self.mpr
  intro e he2
  rw [hnone e he2]
  rfl

/-- Witness for cut_range_exact on a concrete sorted store. -/
theorem cut_range_exact_witness :
    Sorted [([0], [1]), ([0, 7], [2]), ([0, 255], [3]), ([1], [4])] ∧
    (Cut (fun b : Bytes => some b) [0]
        [([0], [1]), ([0, 7], [2]), ([0, 255], [3]), ([1], [4])]).1 =
      Except.ok () ∧
    (Cut (fun b : Bytes => some b) [0]
        [([0], [1]), ([0, 7], [2]), ([0, 255], [3]), ([1], [4])]).2 =
      ([([0], [1]), ([0, 7], [2]), ([0, 255], [3]),
          ([1], [4])].filter
        fun e => !(ble [0] e.1 && blt e.1 ([0] ++ [255]))) :=
  ⟨by unfold Sorted; decide,
    (cut_range_exact (fun b : Bytes => some b) [0] [0]
      (by unfold Sorted; decide) rfl).1,
    (cut_range_exact (fun b : Bytes => some b) [0] [0]
      (by unfold Sorted; decide) rfl).2.1⟩

/-- C6: Take decodes, in ascending store order, the first records whose key
is at least the encoded start — at most num of them, fewer when the store
runs out, none for a non-positive num — and any failure it reports is a
decode error. -/
theorem take_window_spec {Tm : Type} (enc : Tm → Option Bytes)
    (dec : Bytes → Option Tm) (startKey : Tm) (sb : Bytes) (num : Int)
    {s : Store} (hs : Sorted s) (he : enc startKey = some sb) :
    Take enc dec startKey num s = decodePairs dec (takeWindow sb num s) ∧
    takeWindow sb num s = (s.filter fun e => ble sb e.1).take num.toNat ∧
    (∀ err, Take enc dec startKey num s = Except.error err →
      err = KVErr.decodeErr) := by
  have h1 : Take enc dec startKey num s =
      decodePairs dec (takeWindow sb num s) := by
    simp only [Take, he, takeWindow]
    exact takeLoop_eq_decodePairs dec _ _
  refine ⟨h1, ?_, ?_⟩
  · unfold takeWindow
    rw [seek_drop_filter hs sb]
  · intro err herr
    rw [h1] at herr
    exact decodePairs_error dec _ err herr

/-- Witness for take_window_spec on a concrete sorted store. -/
theorem take_window_spec_witness :
    Sorted [([0], [1]), ([1], [2]), ([2], [3])] ∧
    Take (fun b : Bytes => some b) some ([0] : Bytes) 2
        [([0], [1]), ([1], [2]), ([2], [3])] =
      decodePairs some (takeWindow [0] 2
        [([0], [1]), ([1], [2]), ([2], [3])]) ∧
    takeWindow [0] 2 [([0], [1]), ([1], [2]), ([2], [3])] =
      (([([0], [1]), ([1], [2]), ([2], [3])] : Store).filter
        fun e => ble [0] e.1).take (Int.toNat 2) :=
  ⟨by unfold Sorted; decide,
    (take_window_spec (fun b : Bytes => some b) some [0] [0] 2
      (by unfold Sorted; decide) rfl).1,
    (take_window_spec (fun b : Bytes => some b) some [0] [0] 2
      (by unfold Sorted; decide) rfl).2.1⟩

/-- C7: a successful Drop removes exactly the records of the traversal
window that Take decodes on the same state — membership in the resulting
store drops precisely the windowed keys and keeps every other record with
its value — and the deletions land in one state transition (the batch
commit). -/
theorem drop_take_equiv {Tm : Type} (enc : Tm → Option Bytes)
    (dec : Bytes → Option Tm) (startKey : Tm) (sb : Bytes) (num : Int)
    (s : Store) (he : enc startKey = some sb) :
    (Drop enc startKey num s).1 = Except.ok () ∧
    (∀ e, e ∈ (Drop enc startKey num s).2 ↔
      (e ∈ s ∧ ¬ e.1 ∈ (takeWindow sb num s).map Prod.fst)) ∧
    Take enc dec startKey num s = decodePairs dec (takeWindow sb num s) := by
  refine ⟨by simp [Drop, he], ?_, ?_⟩
  · intro e
    simp only [Drop, he]
    exact mem_filter_not_contains _ s e
  · simp only [Take, he, takeWindow]
    exact takeLoop_eq_decodePairs dec _ _

/-- Witness for drop_take_equiv on a concrete store. -/
theorem drop_take_equiv_witness :
    (Drop (fun b : Bytes => some b) ([0] : Bytes) 2
        [([0], [1]), ([1], [2]), ([2], [3])]).1 = Except.ok () ∧
    (([2], [3]) ∈ (Drop (fun b : Bytes => some b) ([0] : Bytes) 2
        [([0], [1]), ([1], [2]), ([2], [3])]).2 ↔
      ((([2], [3]) ∈ ([([0], [1]), ([1], [2]), ([2], [3])] : Store)) ∧
        ¬ [2] ∈ (takeWindow [0] 2
          [([0], [1]), ([1], [2]), ([2], [3])]).map Prod.fst)) :=
  ⟨(drop_take_equiv (fun b : Bytes => some b) some [0] [0] 2
      [([0], [1]), ([1], [2]), ([2], [3])] rfl).1,
    (drop_take_equiv (fun b : Bytes => some b) some [0] [0] 2
      [([0], [1]), ([1], [2]), ([2], [3])] rfl).2.1 ([2], [3])⟩

end KVS

namespace KVS

/-- The Next cursor walk on a sorted store lands on the first record past
every key at most the target. -/
theorem nextOp_eq (start : Bytes) {s : Store} (hs : Sorted s) :
    NextOp start s = ((s.dropWhile fun e => ble e.1 start).head?.elim
      (Except.error KVErr.noSuccessor) Except.ok) := by
  induction s with
  | nil => rfl
  | cons e s ih =>
    rw [sorted_cons] at hs
    rw [List.dropWhile_cons]
    cases hble : ble start e.1
    · have hblt : blt e.1 start = true := by
        rw [blt_eq_not_ble, hble]
        rfl
      rw [if_pos (ble_of_blt hblt), ← ih hs.2]
      simp only [NextOp, seekIdx, List.findIdx_cons, hble, cond_false,
        List.getElem?_cons_succ]
      cases hss : s[List.findIdx (fun f => ble start f.1) s]? with
      | none => simp [hss]
      | some f =>
        by_cases hf : f.1 = start
        · simp [hss, hf, List.getElem?_cons_succ]
        · simp [hss, hf, List.getElem?_cons_succ]
    · by_cases hf : e.1 = start
      · have hble2 : ble e.1 start = true := by
          rw [hf]
          exact ble_refl start
        rw [if_pos hble2]
        cases s with
        | nil => simp [NextOp, seekIdx, List.findIdx_cons, hf, ble_refl]
        | cons g s2 =>
          have hgs : blt start g.1 = true := by
            rw [← hf]
            exact hs.1 g (List.mem_cons_self g s2)
          have hgb : ble g.1 start = false := not_ble.mpr hgs
          rw [List.dropWhile_cons, if_neg (by simp [hgb])]
          simp [NextOp, seekIdx, List.findIdx_cons, hf, ble_refl]
      · have hlt : blt start e.1 = true := by
          rcases ble_cases hble with h | h
          · exact h
          · exact absurd h.symm hf
        have hble2 : ble e.1 start = false := not_ble.mpr hlt
        rw [if_neg (by simp [hble2])]
        simp [NextOp, seekIdx, List.findIdx_cons, hble, hf]

end KVS

namespace KVS

/-- The cursor seek passes over exactly the records whose key is below the
target. -/
theorem seek_take_eq_takeWhile (k : Bytes) (s : Store) :
    s.take (seekIdx k s) = s.takeWhile fun e => blt e.1 k := by
  induction s with
  | nil => rfl
  | cons e s ih =>
    rw [List.takeWhile_cons]
    cases h : ble k e.1
    · have hb : blt e.1 k = true := by
        rw [blt_eq_not_ble, h]
        rfl
      rw [if_pos hb]
      unfold seekIdx at ih ⊢
      rw [List.findIdx_cons, h, cond_false, List.take_succ_cons, ih]
    · have hb : blt e.1 k = false := by
        rw [blt_eq_not_ble, h]
        rfl
      rw [if_neg (by simp [hb])]
      unfold seekIdx
      rw [List.findIdx_cons, h, cond_true, List.take_zero]

/-- The last element of an initial segment, by index. -/
theorem getLast?_take_eq {α : Type} (l : List α) (i : Nat)
    (hle : i ≤ l.length) :
    (l.take i).getLast? = if i = 0 then none else l[i - 1]? := by
  cases i with
  | zero => simp
  | succ m =>
    rw [List.getLast?_eq_getElem?]
    have hlen : (l.take (m + 1)).length = m + 1 := by
      rw [List.length_take]
      omega
    rw [hlen]
    simp only [Nat.add_sub_cancel, List.getElem?_take]
    simp

/-- The Prev cursor walk lands on the last record whose key is strictly
below the target. -/
theorem prevOp_eq (start : Bytes) (s : Store) :
    PrevOp start s = ((s.takeWhile fun e => blt e.1 start).getLast?.elim
      (Except.error KVErr.noPredecessor) Except.ok) := by
  have hle : seekIdx start s ≤ s.length := List.findIdx_le_length _
  rw [← seek_take_eq_takeWhile, getLast?_take_eq s (seekIdx start s) hle]
  simp only [PrevOp]
  by_cases hlen : seekIdx start s < s.length
  · rw [if_pos hlen]
    by_cases hzero : seekIdx start s = 0
    · rw [if_pos hzero, if_pos hzero,
        List.getElem?_eq_none (le_refl s.length)]
      rfl
    · rw [if_neg hzero, if_neg hzero]
      cases hx : s[seekIdx start s - 1]? <;> simp [hx]
  · rw [if_neg hlen]
    have hlen2 : seekIdx start s = s.length :=
      Nat.le_antisymm hle (Nat.le_of_not_lt hlen)
    have hball : ∀ f ∈ s, ble start f.1 = false := by
      have h2 := hlen2
      unfold seekIdx at h2
      exact List.findIdx_eq_length.mp h2
    have hc : (s.findIdx fun e => blt start e.1) = s.length := by
      rw [List.findIdx_eq_length]
      intro f hf
      exact blt_asymm (not_ble.mp (hball f hf))
    rw [hc]
    by_cases hz : s.length = 0
    · rw [if_pos hz, if_pos (by rw [hlen2]; exact hz),
        List.getElem?_eq_none (le_refl s.length)]
      rfl
    · rw [if_neg hz, if_neg (by rw [hlen2]; exact hz), hlen2]
      cases hx : s[s.length - 1]? <;> simp [hx]

end KVS

namespace KVS

/-- The last element of a list is a member. -/
theorem kvs_mem_of_getLast {α : Type} {l : List α} {a : α}
    (h : l.getLast? = some a) : a ∈ l := by
  induction l with
  | nil => exact absurd h (by simp)
  | cons x t ih =>
    cases t with
    | nil =>
      simp at h
      simp [h]
    | cons y t2 =>
      rw [List.getLast?_cons_cons] at h
      exact List.mem_cons_of_mem x (ih h)

/-- On a sorted store, the last record bounds every key from above. -/
theorem sorted_getLast_max {s : Store} (hs : Sorted s) {e : Bytes × Bytes}
    (he : s.getLast? = some e) : ∀ f ∈ s, ble f.1 e.1 = true := by
  induction s with
  | nil => exact absurd he (by simp)
  | cons g t ih =>
    rw [sorted_cons] at hs
    intro f hf
    cases t with
    | nil =>
      simp at he hf
      rw [hf, ← he]
      exact ble_refl _
    | cons g2 t2 =>
      rw [List.getLast?_cons_cons] at he
      rcases List.mem_cons.mp hf with rfl | hf2
      · exact ble_of_blt (hs.1 e (kvs_mem_of_getLast he))
      · exact ih hs.2 he f hf2

/-- C4: with a successfully encoded key, Next returns the decoded record
whose key is the byte-lexicographically smallest key strictly above the
encoding — never the key itself, present or not — and fails with the
NoSuccessor error when no such record exists. -/
theorem next_strict_successor {Tm : Type} (enc : Tm → Option Bytes)
    (dec : Bytes → Option Tm) (k : Tm) (kb : Bytes) {s : Store}
    (hs : Sorted s) (he : enc k = some kb) :
    Next enc dec k s = ((s.filter fun e => blt kb e.1).head?.elim
      (Except.error KVErr.noSuccessor) (decodePair dec)) := by
  have h1 : (s.dropWhile fun e => ble e.1 kb) =
      s.filter fun e => blt kb e.1 :=
    sorted_dropWhile_filter hs _ _
      (fun e => by rw [blt_eq_not_ble kb e.1, Bool.not_not])
      (fun a b ha hb => blt_trans ha hb)
  simp only [Next, he, nextOp_eq kb hs, h1]
  cases hh : (s.filter fun e => blt kb e.1).head? <;> simp [hh]

/-- Witness for next_strict_successor on a concrete sorted store. -/
theorem next_strict_successor_witness :
    Sorted [([0], [10]), ([1], [11]), ([2], [12])] ∧
    Next (fun b : Bytes => some b) some ([1] : Bytes)
        [([0], [10]), ([1], [11]), ([2], [12])] =
      ((([([0], [10]), ([1], [11]), ([2], [12])] : Store).filter
          fun e => blt [1] e.1).head?.elim
        (Except.error KVErr.noSuccessor) (decodePair some)) :=
  ⟨by unfold Sorted; decide,
    next_strict_successor (fun b : Bytes => some b) some [1] [1]
      (by unfold Sorted; decide) rfl⟩

/-- C5: with a successfully encoded key, Prev returns the decoded record
whose key is the byte-lexicographically greatest key strictly below the
encoding — never the key itself, and found through the fallback seek when
no key at or above the encoding exists — and fails with the NoPredecessor
error when no key lies below. -/
theorem prev_strict_predecessor {Tm : Type} (enc : Tm → Option Bytes)
    (dec : Bytes → Option Tm) (k : Tm) (kb : Bytes) {s : Store}
    (hs : Sorted s) (he : enc k = some kb) :
    Prev enc dec k s = ((s.filter fun e => blt e.1 kb).getLast?.elim
      (Except.error KVErr.noPredecessor) (decodePair dec)) := by
  have h1 : (s.takeWhile fun e => blt e.1 kb) =
      s.filter fun e => blt e.1 kb :=
    sorted_takeWhile_filter hs _
      (fun a b ha hb => blt_asymm (blt_of_ble_of_blt (ble_of_not_blt ha) hb))
  simp only [Prev, he, prevOp_eq kb s, h1]
  cases hh : (s.filter fun e => blt e.1 kb).getLast? <;> simp [hh]

/-- Witness for prev_strict_predecessor on a concrete sorted store,
exercising the fallback where no key at or above the target exists. -/
theorem prev_strict_predecessor_witness :
    Sorted [([0], [10]), ([1], [11]), ([2], [12])] ∧
    Prev (fun b : Bytes => some b) some ([7] : Bytes)
        [([0], [10]), ([1], [11]), ([2], [12])] =
      ((([([0], [10]), ([1], [11]), ([2], [12])] : Store).filter
          fun e => blt e.1 [7]).getLast?.elim
        (Except.error KVErr.noPredecessor) (decodePair some)) :=
  ⟨by unfold Sorted; decide,
    prev_strict_predecessor (fun b : Bytes => some b) some [7] [7]
      (by unfold Sorted; decide) rfl⟩

/-- C8: Top and Bot fail with the EmptyStore error on the empty store; on a
nonempty sorted store Top returns the decoded record carrying the smallest
key and Bot the decoded record carrying the largest, with no write to the
store. -/
theorem top_bot_boundary {Tm : Type} (dec : Bytes → Option Tm) {s : Store}
    (hs : Sorted s) :
    (s = [] → Top dec s = Except.error KVErr.emptyStore ∧
      Bot dec s = Except.error KVErr.emptyStore) ∧
    (∀ e, s.head? = some e → Top dec s = decodePair dec e ∧
      ∀ f ∈ s, ble e.1 f.1 = true) ∧
    (∀ e, s.getLast? = some e → Bot dec s = decodePair dec e ∧
      ∀ f ∈ s, ble f.1 e.1 = true) := by
  refine ⟨?_, ?_, ?_⟩
  · intro h
    subst h
    exact ⟨rfl, rfl⟩
  · intro e he
    refine ⟨by simp [Top, he], ?_⟩
    cases s with
    | nil => exact absurd he (by simp)
    | cons g t =>
      rw [List.head?_cons] at he
      rw [sorted_cons] at hs
      have hge : g = e := Option.some.inj he
      intro f hf
      rcases List.mem_cons.mp hf with rfl | hf2
      · rw [← hge]
        exact ble_refl _
      · rw [← hge]
        exact ble_of_blt (hs.1 f hf2)
  · intro e he
    exact ⟨by simp [Bot, he], sorted_getLast_max hs he⟩

/-- Witness for top_bot_boundary on the empty store and a concrete
three-record store. -/
theorem top_bot_boundary_witness :
    (Top (some : Bytes → Option Bytes) ([] : Store) =
        Except.error KVErr.emptyStore ∧
      Bot (some : Bytes → Option Bytes) ([] : Store) =
        Except.error KVErr.emptyStore) ∧
    (Top (some : Bytes → Option Bytes)
        [([0], [10]), ([1], [11]), ([2], [12])] =
      decodePair some (([0], [10])) ∧
      ∀ f ∈ ([([0], [10]), ([1], [11]), ([2], [12])] : Store),
        ble [0] f.1 = true) ∧
    (Bot (some : Bytes → Option Bytes)
        [([0], [10]), ([1], [11]), ([2], [12])] =
      decodePair some (([2], [12])) ∧
      ∀ f ∈ ([([0], [10]), ([1], [11]), ([2], [12])] : Store),
        ble f.1 [2] = true) :=
  ⟨(top_bot_boundary (some : Bytes → Option Bytes)
      (by unfold Sorted; decide)).1 rfl,
    (top_bot_boundary (some : Bytes → Option Bytes)
      (by unfold Sorted; decide)).2.1 (([0], [10])) rfl,
    (top_bot_boundary (some : Bytes → Option Bytes)
      (by unfold Sorted; decide)).2.2 (([2], [12])) rfl⟩

end KVS
